import Mathlib

/-!
# Verification model of the flat-file comparator (`src/app.py`)

This file gives a shallow embedding of the row-reconciliation engine of
`src/app.py`: the value normalizer `normalize_for_comparison` (lines 113-126),
the outer-join row matcher (line 352), the primary statistics and match
percentage (lines 355-360), the drop-one key sensitivity analysis
(lines 368-389), and the mismatch-diagnosis report section (lines 391-444).

Cells are modelled as strings (the string form of the raw cell value).
Pandas library primitives are modelled as follows, each faithful to the
documented pandas semantics on the model's value domain:

* `pd.to_numeric(s, errors='coerce')` on a cell: parses an optionally signed
  decimal literal (surrounding whitespace ignored, as `float()` does); any
  unparsable cell (including the `nan`-like spellings, which pandas parses to
  the float `NaN` and which the `.where(s_numeric.isna(), ...)` on line 115
  therefore keeps as the original value) is modelled as a parse failure, so
  the original cell is kept.  Exponent notation is outside the model's value
  domain.
* `pd.to_datetime(s, errors='coerce')` on the mixed series of line 116:
  a numeric entry is interpreted as **nanoseconds since the Unix epoch**
  (the default `unit='ns'` of `to_datetime`; the fractional part is truncated
  as `cast_from_unit` does), yielding a timestamp when within the
  `datetime64[ns]` bounds and `NaT` (hence the original value, restored by
  `.fillna`) otherwise; a string entry is parsed as a calendar date, modelled
  on the canonical `YYYY-MM-DD` form (surrounding whitespace tolerated).
* `.dt.strftime('%Y-%m-%d')`: zero-padded fixed-width printing.
* `str(float)` for the out-of-bounds numeric magnitudes (≥ 2^63 ns) uses
  scientific notation, modelled by `numToStr`.
* `.str.strip()` / `str.lower()` / the regexes `\.0$` and `\s+`: modelled
  character-exactly over `Char.isWhitespace` and ASCII case.
-/

/-- The two data-normalization options of the sidebar that
`normalize_for_comparison` receives (`opt_case_data`, `opt_trim`). -/
structure NormOpts where
  caseData : Bool
  trimWs : Bool
deriving DecidableEq, Repr

/-- Whitespace test used by the model of `.strip()` and `\s+`. -/
def isWs (c : Char) : Bool := c.isWhitespace

/-- Python `str.strip()`: drop leading and trailing whitespace. -/
def stripChars (l : List Char) : List Char :=
  ((l.dropWhile isWs).reverse.dropWhile isWs).reverse

/-- Model of the regex substitution `\s+` → `' '` (line 123): the flag records
whether the previous character was whitespace, so that each maximal whitespace
run is emitted as a single `' '`. -/
def collapseAux : Bool → List Char → List Char
  | _, [] => []
  | pw, c :: r =>
    if isWs c then
      if pw then collapseAux true r else ' ' :: collapseAux true r
    else c :: collapseAux false r

/-- `re.sub(r'\s+', ' ', s)`. -/
def collapseWs (l : List Char) : List Char := collapseAux false l

/-- The trim option of line 122-123: `.str.strip().str.replace(r'\s+', ' ')`. -/
def trimStepL (l : List Char) : List Char := collapseWs (stripChars l)

/-- `str.lower()` (ASCII model). -/
def lowerL (l : List Char) : List Char := l.map Char.toLower

/-- The regex substitution `\.0$` → `''` of line 118: strip one trailing
`.0`. -/
def stripDot0 (l : List Char) : List Char :=
  match l.reverse with
  | '0' :: '.' :: r => r.reverse
  | _ => l

/-- The null-equivalent spellings of line 120: `['nan', '<na>', 'none', 'nat',
'']`. -/
def nullTokens : List (List Char) :=
  [['n', 'a', 'n'], ['<', 'n', 'a', '>'], ['n', 'o', 'n', 'e'], ['n', 'a', 't'], []]

/-- Line 119-120's test `s.str.lower().str.strip().isin([...])`. -/
def isNullTok (l : List Char) : Bool := nullTokens.contains (stripChars (lowerL l))

/-- Digit character for a value `< 10`. -/
def dChar (n : Nat) : Char := Char.ofNat (48 + n)

/-- Numeric value of a digit character. -/
def dVal (c : Char) : Nat := c.toNat - 48

/-- Zero-padded fixed-width decimal printing (most significant digit first);
the model of `strftime`'s `%Y` / `%m` / `%d` fields. -/
def toDigitsFixed : Nat → Nat → List Char
  | 0, _ => []
  | w + 1, n => toDigitsFixed w (n / 10) ++ [dChar (n % 10)]

/-- Value of a digit string (most significant digit first). -/
def ofDigits (l : List Char) : Nat := l.foldl (fun a c => 10 * a + dVal c) 0

/-- `allDigits l` holds when every character is `0`-`9`. -/
def allDigits (l : List Char) : Bool := l.all (·.isDigit)

/-- A calendar date as (year, month, day). -/
abbrev DateT := Int × Nat × Nat

/-- `.dt.strftime('%Y-%m-%d')` (line 116): zero-padded `YYYY-MM-DD`.  The
fixed-width fields print the value modulo the field width; on every reachable
input (years 1677-2262 from the epoch conversion, and the 4-2-2-digit values
produced by `parseDateL`) the reductions are no-ops. -/
def fmtDate : DateT → List Char
  | (y, m, d) =>
    toDigitsFixed 4 (y.toNat % 10000) ++ '-' :: toDigitsFixed 2 (m % 100)
      ++ '-' :: toDigitsFixed 2 (d % 100)

/-- Model of the date parsing `pd.to_datetime` applies to string entries of
the series (line 116), restricted to the canonical zero-padded `YYYY-MM-DD`
form with surrounding whitespace tolerated.  Well-shaped but out-of-range
component values reprint to the same string, so accepting them is
observationally the same as rejecting them. -/
def parseDateL (l : List Char) : Option DateT :=
  match stripChars l with
  | [y1, y2, y3, y4, s1, m1, m2, s2, d1, d2] =>
    if s1 = '-' ∧ s2 = '-' ∧ allDigits [y1, y2, y3, y4, m1, m2, d1, d2] then
      some ((ofDigits [y1, y2, y3, y4] : Int), ofDigits [m1, m2], ofDigits [d1, d2])
    else none
  | _ => none

/-- The unsigned part of the numeric grammar: digits with at most one decimal
point and at least one digit; the value `±(intPart + frac / 10^fracLen)` is
built as one exact rational, the sign folded into the numerator. -/
def parseNumTail (sgn : Int) (l' : List Char) : Option Rat :=
  let intPart := l'.takeWhile (·.isDigit)
  let rest := l'.dropWhile (·.isDigit)
  match rest with
  | [] => if intPart ≠ [] then some (mkRat (sgn * (ofDigits intPart : Int)) 1) else none
  | '.' :: frac =>
    if allDigits frac ∧ (intPart ≠ [] ∨ frac ≠ []) then
      some (mkRat (sgn * ((ofDigits intPart : Int) * 10 ^ frac.length + (ofDigits frac : Int)))
        (10 ^ frac.length))
    else none
  | _ => none

/-- Model of `pd.to_numeric(x, errors='coerce')` on one cell, after the
whitespace stripping `float()` performs: an optional sign, then the unsigned
decimal grammar. -/
def parseNumCore (l : List Char) : Option Rat :=
  match l with
  | '-' :: r => parseNumTail (-1) r
  | '+' :: r => parseNumTail 1 r
  | l => parseNumTail 1 l

/-- `pd.to_numeric` on one cell (line 114). -/
def parseNumL (l : List Char) : Option Rat := parseNumCore (stripChars l)

/-- Days-since-epoch to (year, month, day), the standard civil-from-days
calendar algorithm used to model the date components of a `datetime64[ns]`
timestamp. -/
def civilFromDays (z : Int) : DateT :=
  let z' := z + 719468
  let era := z'.fdiv 146097
  let doe := (z' - era * 146097).toNat
  let yoe := (doe - doe / 1460 + doe / 36524 - doe / 146096) / 365
  let y := (yoe : Int) + era * 400
  let doy := doe - (365 * yoe + yoe / 4 - yoe / 100)
  let mp := (5 * doy + 2) / 153
  let d := doy - (153 * mp + 2) / 5 + 1
  let m := if mp < 10 then mp + 3 else mp - 9
  (if m ≤ 2 then y + 1 else y, m, d)

/-- Nanoseconds per day. -/
def nsPerDay : Int := 86400000000000

/-- Largest `datetime64[ns]` magnitude (`Timestamp.max.value`). -/
def tsMax : Int := 9223372036854775807

/-- Truncation toward zero of a rational, as `cast_from_unit` truncates a
float when converting to integer nanoseconds. -/
def truncRat (q : Rat) : Int := q.num / (q.den : Int)

/-- Model of `pd.to_datetime(v, errors='coerce')` on a *numeric* entry of the
series (line 116): the value is taken as nanoseconds since the epoch
(`unit='ns'`), giving a timestamp when in the `datetime64[ns]` range and `NaT`
otherwise.  Only the calendar date is retained, since line 116 immediately
formats with `%Y-%m-%d`. -/
def numToDate (q : Rat) : Option DateT :=
  let ns := truncRat q
  if -tsMax ≤ ns ∧ ns ≤ tsMax then some (civilFromDays (ns.fdiv nsPerDay)) else none

/-- Number of decimal digits of `n` (with `numDigits 0 = 1`), by fuel
recursion. -/
def numDigitsAux : Nat → Nat → Nat
  | 0, _ => 1
  | fuel + 1, n => if n < 10 then 1 else numDigitsAux fuel (n / 10) + 1

/-- Number of decimal digits of `n`. -/
def numDigits (n : Nat) : Nat := numDigitsAux n n

/-- Model of Python's `str()` of a float of magnitude at least 2^63
nanoseconds (the only numeric values that reach `astype(str)` on line 117,
all of which exceed the 1e16 threshold for scientific notation): first
significant digit, point, up to 16 following digits, then `e+` and the
exponent. -/
def numToStr (q : Rat) : List Char :=
  let n := (truncRat q).natAbs
  let ds := toDigitsFixed (numDigits n) n
  (if q.num < 0 then ['-'] else []) ++ ds.take 1 ++ '.' :: (ds.drop 1).take 16
    ++ 'e' :: '+' :: toDigitsFixed (numDigits (numDigits n - 1)) (numDigits n - 1)

/-- The per-cell normalization pipeline of `normalize_for_comparison`
(lines 113-126), stage by stage:
line 114-115 numeric substitution, line 116 date coercion (numeric entries as
epoch nanoseconds, string entries parsed as dates, failures keeping the
original), line 117 string conversion, line 118 trailing-`.0` strip, lines
119-120 null-equivalent collapse, lines 122-123 optional trim, lines 124-125
optional lowercasing. -/
def normChars (o : NormOpts) (x : List Char) : List Char :=
  let s2 : List Char :=
    match parseNumL x with
    | some q =>
      match numToDate q with
      | some d => fmtDate d
      | none => numToStr q
    | none =>
      match parseDateL x with
      | some d => fmtDate d
      | none => x
  let s3 := stripDot0 s2
  let s4 := if isNullTok s3 then [] else s3
  let s5 := if o.trimWs then trimStepL s4 else s4
  if o.caseData then lowerL s5 else s5

/-- `normalize_for_comparison` applied to one cell, on strings. -/
def normalizeCell (o : NormOpts) (s : String) : String := ⟨normChars o s.data⟩

/-- The equality test the mismatch diagnoser applies to one matched pair of
cells in one column: `s1 != s2` after both sides pass through
`normalize_for_comparison` (lines 431-433).  Key matching and mismatch
diagnosis share `normalizeCell`. -/
def cellsDiffer (o : NormOpts) (a b : String) : Bool :=
  normalizeCell o a != normalizeCell o b

/-- A normalized key tuple (one row of `df1_n[selected_src]`). -/
abbrev KeyT := List String

/-- One table row projected to the key columns and normalized (lines
345-347). -/
def nrmRow (o : NormOpts) (r : List String) : KeyT := r.map (normalizeCell o)

/-- The normalized key projection of a table (rows aligned with the key
column list). -/
def normRows (o : NormOpts) (T : List (List String)) : List KeyT :=
  T.map (nrmRow o)

/-- The normalized key projection with each row's original ordinal index
attached, modelling `df1_n` with its `_oid_src` column (lines 349-350):
row identity is the position in the original table. -/
def nTable (o : NormOpts) (T : List (List String)) : List (Nat × KeyT) :=
  (normRows o T).enum

/-- Rows of `B` whose key tuple equals `k`. -/
def keyMatches (B : List (Nat × KeyT)) (k : KeyT) : List (Nat × KeyT) :=
  B.filter (fun b => b.2 == k)

/-- The `both` partition of the outer merge of line 352: every pair of a
source row and a target row with equal normalized key tuples (pandas join
combinatorics: duplicate keys produce the full cross-product). -/
def bothRecs (A B : List (Nat × KeyT)) : List ((Nat × KeyT) × (Nat × KeyT)) :=
  A.flatMap (fun a => (keyMatches B a.2).map (fun b => (a, b)))

/-- The `left_only` partition of the outer merge: source rows with no
key-matching target row. -/
def leftOnly (A B : List (Nat × KeyT)) : List (Nat × KeyT) :=
  A.filter (fun a => (keyMatches B a.2).isEmpty)

/-- The `right_only` partition of the outer merge: target rows with no
key-matching source row. -/
def rightOnly (A B : List (Nat × KeyT)) : List (Nat × KeyT) :=
  B.filter (fun b => (keyMatches A b.2).isEmpty)

/-- One comparison run as the engine receives it: the options, the selected
key columns, the non-key common columns, and both tables projected to key
columns (`srcKeys`/`tgtKeys`, rows aligned with `keyCols`, the target already
renamed to source column names per lines 340-343) and to the non-key common
columns (`srcVals`/`tgtVals`, rows aligned with `valueCols`). -/
structure Run where
  opts : NormOpts
  keyCols : List String
  valueCols : List String
  srcKeys : List (List String)
  tgtKeys : List (List String)
  srcVals : List (List String)
  tgtVals : List (List String)

/-- `df1_n` of the run. -/
def srcN (R : Run) : List (Nat × KeyT) := nTable R.opts R.srcKeys

/-- `df2_n` of the run. -/
def tgtN (R : Run) : List (Nat × KeyT) := nTable R.opts R.tgtKeys

/-- `c_both` (line 356): the number of `both` records of the outer merge. -/
def cBoth (R : Run) : Nat := (bothRecs (srcN R) (tgtN R)).length

/-- `c_src` (line 357). -/
def cSrc (R : Run) : Nat := (leftOnly (srcN R) (tgtN R)).length

/-- `c_tgt` (line 358). -/
def cTgt (R : Run) : Nat := (rightOnly (srcN R) (tgtN R)).length

/-- `total_union` (line 359). -/
def totalUnion (R : Run) : Nat := cBoth R + cSrc R + cTgt R

/-- The percentage `(num / den * 100) if den else 0` (lines 360 and 377), as
the exact rational `100 * num / den`. -/
def pctOf (num den : Nat) : Rat :=
  if den = 0 then 0 else mkRat (100 * num) den

/-- `match_pct` (line 360). -/
def matchPct (R : Run) : Rat := pctOf (cBoth R) (totalUnion R)

/-- The key tuple restricted to the key columns other than `c`
(`temp_keys = [k for k in selected_src if k != col_to_remove]`, line 373). -/
def projKeys (keyCols : List String) (c : String) (k : KeyT) : KeyT :=
  ((keyCols.zip k).filter (fun p => p.1 != c)).map Prod.snd

/-- `temp_merged['_oid_src'].nunique()` (lines 374-375): the number of
distinct source-row identities that occur in the inner merge on the remaining
key columns, i.e. of source rows with at least one key match. -/
def tempMatchCount (R : Run) (c : String) : Nat :=
  (((srcN R).filter (fun a =>
      (tgtN R).any (fun b => projKeys R.keyCols c b.2 == projKeys R.keyCols c a.2))).map
    Prod.fst).toFinset.card

/-- `temp_pct` for one candidate column (lines 376-377):
`temp_match_count / (total_src_rows + total_tgt_rows - temp_match_count)
* 100`, or 0 on a zero denominator. -/
def tempPct (R : Run) (c : String) : Rat :=
  let tm := tempMatchCount R c
  pctOf tm (R.srcKeys.length + R.tgtKeys.length - tm)

/-- The candidate loop of lines 369-382, carried state
`(best_alt_pct, best_alt_col)` initialized to `(0, None)`: a candidate
replaces the state when its percentage strictly exceeds both `match_pct` and
the best so far. -/
def bestAltAux (mp : Rat) (f : String → Rat) :
    List String → Rat × Option String → Rat × Option String
  | [], acc => acc
  | c :: rest, acc =>
    if mp < f c ∧ acc.1 < f c then bestAltAux mp f rest (f c, some c)
    else bestAltAux mp f rest acc

/-- The drop-one sensitivity analysis (lines 368-382): it runs exactly when
`match_pct < 100` and more than one key column is selected, and otherwise
leaves `(0, None)`. -/
def dropOneRec (R : Run) : Rat × Option String :=
  if matchPct R < 100 ∧ 1 < R.keyCols.length then
    bestAltAux (matchPct R) (tempPct R) R.keyCols (0, none)
  else (0, none)

/-- The recommendation the report shows (lines 384-389): present when
`best_alt_col` is truthy (not `None` and not the empty string), carrying the
column and `best_alt_pct`. -/
def recoMsg (R : Run) : Option (String × Rat) :=
  match dropOneRec R with
  | (p, some c) => if c = "" then none else some (c, p)
  | _ => none

/-- First occurrences of each distinct element, in order of appearance
(pandas `Series.unique()`); `seen` accumulates the values already emitted. -/
def firstDedupAux : List String → List String → List String
  | [], _ => []
  | x :: r, seen =>
    if x ∈ seen then firstDedupAux r seen else x :: firstDedupAux r (x :: seen)

/-- `Series.unique()` in appearance order. -/
def firstDedup (l : List String) : List String := firstDedupAux l []

/-- `df_n[col].unique()[:3]` for key column number `i` of a normalized key
projection (lines 407-408). -/
def sampleCol (T : List KeyT) (i : Nat) : List String :=
  (firstDedup (T.map (fun r => r.getD i ""))).take 3

/-- The per-key-column sample excerpts of the zero-match branch (lines
406-417): for each key column, the first three distinct normalized values of
each side. -/
def samplesOf (R : Run) : List (String × List String × List String) :=
  R.keyCols.enum.map (fun p =>
    (p.2, sampleCol (normRows R.opts R.srcKeys) p.1,
      sampleCol (normRows R.opts R.tgtKeys) p.1))

/-- The matched row-identity pairs `(idx_src, idx_tgt)` (lines 422-423). -/
def mmPairs (R : Run) : List (Nat × Nat) :=
  (bothRecs (srcN R) (tgtN R)).map (fun p => (p.1.1, p.2.1))

/-- The mismatch count of value column number `i` (lines 429-433): the number
of matched pairs whose raw values in that column, looked up in the original
tables by row identity, normalize to different strings. -/
def mmCountAt (R : Run) (i : Nat) : Nat :=
  (mmPairs R).countP (fun pr =>
    cellsDiffer R.opts ((R.srcVals.getD pr.1 []).getD i "")
      ((R.tgtVals.getD pr.2 []).getD i ""))

/-- The rows of `mismatch_df` (lines 429-438): one entry per value column
with a positive mismatch count, sorted by count descending. -/
def mmEntries (R : Run) : List (String × Nat) :=
  List.insertionSort (fun a b : String × Nat => b.2 ≤ a.2)
    ((R.valueCols.enum.map (fun p => (p.2, mmCountAt R p.1))).filter
      (fun e => 0 < e.2))

/-- The structured content of the "Mismatch Diagnosis" section
(lines 391-444): the 100% branch note, the 0% branch (recommendation, or
sample excerpts when there is none), and the intermediate branch (optional
recommendation plus the ranked per-column mismatch counts). -/
inductive DiagSection where
  | allGood : DiagSection
  | zeroReco : String → Rat → DiagSection
  | zeroSamples : List (String × List String × List String) → DiagSection
  | withCounts : Option (String × Rat) → List (String × Nat) → DiagSection
deriving DecidableEq, Repr

/-- `mismatch_html` as structured data (lines 391-444). -/
def diagSection (R : Run) : DiagSection :=
  if matchPct R = 100 then .allGood
  else if matchPct R = 0 then
    match recoMsg R with
    | some (c, p) => .zeroReco c p
    | none => .zeroSamples (samplesOf R)
  else
    .withCounts (recoMsg R)
      (if R.valueCols ≠ [] ∧ (bothRecs (srcN R) (tgtN R)).isEmpty = false then
        mmEntries R
      else [])

/-- The ranked per-column mismatch counts a section displays (empty for the
branches that render none). -/
def reportCounts : DiagSection → List (String × Nat)
  | .withCounts _ es => es
  | _ => []

/-- The sample excerpts a section displays, when present. -/
def sampleList : DiagSection → Option (List (String × List String × List String))
  | .zeroSamples s => some s
  | _ => none

/-- The one-row, one-key-column run holding the two cells `v` and `w`: the
smallest comparison the Row Matcher can be run on. -/
def run1 (o : NormOpts) (v w : String) : Run :=
  ⟨o, ["key"], [], [[v]], [[w]], [], []⟩

/-- Concrete run: two key columns `id`, `r`; the single rows agree on `id`
and disagree on `r`, so nothing matches on the full key but dropping `r`
matches everything. -/
def runK2 : Run :=
  ⟨⟨false, false⟩, ["id", "r"], [], [["k", "a"]], [["k", "b"]], [], []⟩

/-- Concrete run: one key column, equal keys, one value column differing. -/
def runVal : Run :=
  ⟨⟨false, false⟩, ["id"], ["x"], [["k"]], [["k"]], [["a"]], [["b"]]⟩

/-- Concrete run: one key column, disjoint key values. -/
def runDisj : Run :=
  ⟨⟨false, false⟩, ["id"], [], [["a"]], [["b"]], [], []⟩

/-- Concrete run: a key value duplicated on both sides, so the join holds
four pairs while either table has two rows. -/
def runDup : Run :=
  ⟨⟨false, false⟩, ["k"], [], [["a"], ["a"]], [["a"], ["a"]], [], []⟩

/-- Concrete run with an intermediate match percentage: one of two rows
matches on the key, and the matched pair differs in the value column `x`. -/
def runMid : Run :=
  ⟨⟨false, false⟩, ["id"], ["x"], [["a"], ["b"]], [["a"], ["c"]], [["u"], ["w"]],
    [["z"], ["w"]]⟩

/-! ## The outer-join partitions -/

theorem mem_bothRecs {A B : List (Nat × KeyT)} {a b : Nat × KeyT} :
    (a, b) ∈ bothRecs A B ↔ a ∈ A ∧ b ∈ B ∧ b.2 = a.2 := by
  simp only [bothRecs, keyMatches, List.mem_flatMap, List.mem_map, List.mem_filter,
    beq_iff_eq, Prod.mk.injEq]
  constructor
  · rintro ⟨a', ha', b', ⟨hb', hkey⟩, rfl, rfl⟩
    exact ⟨ha', hb', hkey⟩
  · rintro ⟨ha, hb, hkey⟩
    exact ⟨a, ha, b, ⟨hb, hkey⟩, rfl, rfl⟩

theorem keyMatches_isEmpty_iff {B : List (Nat × KeyT)} {k : KeyT} :
    (keyMatches B k).isEmpty = true ↔ ∀ b ∈ B, b.2 ≠ k := by
  simp [keyMatches, List.isEmpty_iff, List.filter_eq_nil_iff]

theorem bothIds_src_eq (A B : List (Nat × KeyT)) :
    ((bothRecs A B).map (fun p => p.1.1)).toFinset =
      ((A.filter (fun a => !(keyMatches B a.2).isEmpty)).map Prod.fst).toFinset := by
  ext x
  simp only [List.mem_toFinset, List.mem_map, List.mem_filter, Bool.not_eq_true',
    Bool.not_eq_true]
  constructor
  · rintro ⟨⟨a, b⟩, hmem, rfl⟩
    rcases mem_bothRecs.1 hmem with ⟨ha, hb, hkey⟩
    refine ⟨a, ⟨ha, ?_⟩, rfl⟩
    rcases h : (keyMatches B a.2).isEmpty with _ | _
    · rfl
    · exact absurd hkey (keyMatches_isEmpty_iff.1 h b hb)
  · rintro ⟨a, ⟨ha, hne⟩, rfl⟩
    have : ¬ ∀ b ∈ B, b.2 ≠ a.2 := by
      intro hall
      rw [← keyMatches_isEmpty_iff] at hall
      simp [hall] at hne
    push_neg at this
    rcases this with ⟨b, hb, hkey⟩
    exact ⟨(a, b), mem_bothRecs.2 ⟨ha, hb, hkey⟩, rfl⟩

theorem bothIds_tgt_eq (A B : List (Nat × KeyT)) :
    ((bothRecs A B).map (fun p => p.2.1)).toFinset =
      ((B.filter (fun b => !(keyMatches A b.2).isEmpty)).map Prod.fst).toFinset := by
  ext x
  simp only [List.mem_toFinset, List.mem_map, List.mem_filter, Bool.not_eq_true',
    Bool.not_eq_true]
  constructor
  · rintro ⟨⟨a, b⟩, hmem, rfl⟩
    rcases mem_bothRecs.1 hmem with ⟨ha, hb, hkey⟩
    refine ⟨b, ⟨hb, ?_⟩, rfl⟩
    rcases h : (keyMatches A b.2).isEmpty with _ | _
    · rfl
    · exact absurd (hkey ▸ rfl) (keyMatches_isEmpty_iff.1 h a ha)
  · rintro ⟨b, ⟨hb, hne⟩, rfl⟩
    have : ¬ ∀ a ∈ A, a.2 ≠ b.2 := by
      intro hall
      rw [← keyMatches_isEmpty_iff] at hall
      simp [hall] at hne
    push_neg at this
    rcases this with ⟨a, ha, hkey⟩
    exact ⟨(a, b), mem_bothRecs.2 ⟨ha, hb, hkey.symm⟩, rfl⟩

theorem partition_count_src (A B : List (Nat × KeyT)) (h : (A.map Prod.fst).Nodup) :
    (leftOnly A B).length +
      ((bothRecs A B).map (fun p => p.1.1)).toFinset.card = A.length := by
  have hsub : ((A.filter (fun a => !(keyMatches B a.2).isEmpty)).map Prod.fst).Nodup :=
    ((List.filter_sublist A).map Prod.fst).nodup h
  rw [bothIds_src_eq, List.toFinset_card_of_nodup hsub, List.length_map]
  have hlen := List.length_eq_length_filter_add
    (l := A) (f := fun a => (keyMatches B a.2).isEmpty)
  rw [leftOnly]
  omega

theorem partition_count_tgt (A B : List (Nat × KeyT)) (h : (B.map Prod.fst).Nodup) :
    (rightOnly A B).length +
      ((bothRecs A B).map (fun p => p.2.1)).toFinset.card = B.length := by
  have hsub : ((B.filter (fun b => !(keyMatches A b.2).isEmpty)).map Prod.fst).Nodup :=
    ((List.filter_sublist B).map Prod.fst).nodup h
  rw [bothIds_tgt_eq, List.toFinset_card_of_nodup hsub, List.length_map]
  have hlen := List.length_eq_length_filter_add
    (l := B) (f := fun b => (keyMatches A b.2).isEmpty)
  rw [rightOnly]
  omega

theorem leftOnly_iff_not_both (A B : List (Nat × KeyT)) (h : (A.map Prod.fst).Nodup)
    (a : Nat × KeyT) (ha : a ∈ A) :
    a ∈ leftOnly A B ↔ a.1 ∉ (bothRecs A B).map (fun p => p.1.1) := by
  have hinj := List.inj_on_of_nodup_map h
  constructor
  · intro hl hmem
    rcases List.mem_map.1 hmem with ⟨⟨a', b'⟩, hp, hfst⟩
    rcases mem_bothRecs.1 hp with ⟨ha', hb', hkey⟩
    have : a' = a := hinj ha' ha hfst
    subst this
    have hempty := (List.mem_filter.1 hl).2
    exact keyMatches_isEmpty_iff.1 hempty b' hb' hkey
  · intro hnm
    refine List.mem_filter.2 ⟨ha, ?_⟩
    rw [keyMatches_isEmpty_iff]
    intro b hb hkey
    exact hnm (List.mem_map.2 ⟨(a, b), mem_bothRecs.2 ⟨ha, hb, hkey⟩, rfl⟩)

theorem rightOnly_iff_not_both (A B : List (Nat × KeyT)) (h : (B.map Prod.fst).Nodup)
    (b : Nat × KeyT) (hb : b ∈ B) :
    b ∈ rightOnly A B ↔ b.1 ∉ (bothRecs A B).map (fun p => p.2.1) := by
  have hinj := List.inj_on_of_nodup_map h
  constructor
  · intro hl hmem
    rcases List.mem_map.1 hmem with ⟨⟨a', b'⟩, hp, hfst⟩
    rcases mem_bothRecs.1 hp with ⟨ha', hb', hkey⟩
    have : b' = b := hinj hb' hb hfst
    subst this
    have hempty := (List.mem_filter.1 hl).2
    exact keyMatches_isEmpty_iff.1 hempty a' ha' hkey.symm
  · intro hnm
    refine List.mem_filter.2 ⟨hb, ?_⟩
    rw [keyMatches_isEmpty_iff]
    intro a ha hkey
    exact hnm (List.mem_map.2 ⟨(a, b), mem_bothRecs.2 ⟨ha, hb, hkey.symm⟩, rfl⟩)

theorem nTable_fst_nodup (o : NormOpts) (T : List (List String)) :
    ((nTable o T).map Prod.fst).Nodup := by
  rw [nTable, List.enum_map_fst]
  exact List.nodup_range _

theorem nTable_length (o : NormOpts) (T : List (List String)) :
    (nTable o T).length = T.length := by
  simp [nTable, normRows]

/-- C1.  Partition completeness of the outer-join match: the `left_only` rows
plus the distinct source rows occurring in `both` pairs exhaust the source
table, symmetrically for the target table, and each source (resp. target) row
is in `only_source` (resp. `only_target`) precisely when its identity appears
in no matched pair. -/
theorem C1_partition_completeness (R : Run) (_hk : R.keyCols ≠ []) :
    (cSrc R + ((bothRecs (srcN R) (tgtN R)).map (fun p => p.1.1)).toFinset.card
        = R.srcKeys.length) ∧
    (cTgt R + ((bothRecs (srcN R) (tgtN R)).map (fun p => p.2.1)).toFinset.card
        = R.tgtKeys.length) ∧
    (∀ a ∈ srcN R, (a ∈ leftOnly (srcN R) (tgtN R) ↔
        a.1 ∉ (bothRecs (srcN R) (tgtN R)).map (fun p => p.1.1))) ∧
    (∀ b ∈ tgtN R, (b ∈ rightOnly (srcN R) (tgtN R) ↔
        b.1 ∉ (bothRecs (srcN R) (tgtN R)).map (fun p => p.2.1))) := by
  refine ⟨?_, ?_, ?_, ?_⟩
  · have := partition_count_src (srcN R) (tgtN R) (nTable_fst_nodup _ _)
    rw [srcN, nTable_length] at this
    exact this
  · have := partition_count_tgt (srcN R) (tgtN R) (nTable_fst_nodup _ _)
    rw [tgtN, nTable_length] at this
    exact this
  · exact leftOnly_iff_not_both _ _ (nTable_fst_nodup _ _)
  · exact rightOnly_iff_not_both _ _ (nTable_fst_nodup _ _)

/-- Witness for C1 at a concrete run with a non-empty key set. -/
theorem C1_partition_completeness_witness :
    runK2.keyCols ≠ [] ∧
    (cSrc runK2 + ((bothRecs (srcN runK2) (tgtN runK2)).map
        (fun p => p.1.1)).toFinset.card = runK2.srcKeys.length) :=
  ⟨by decide, (C1_partition_completeness runK2 (by decide)).1⟩

theorem bothRecs_count_key (A B : List (Nat × KeyT)) (k : KeyT) :
    ((bothRecs A B).filter (fun p => p.1.2 == k)).length =
      (A.filter (fun a => a.2 == k)).length * (B.filter (fun b => b.2 == k)).length := by
  induction A with
  | nil => simp [bothRecs]
  | cons a A ih =>
    rw [bothRecs, List.flatMap_cons, List.filter_append, List.length_append,
      List.filter_map]
    rw [bothRecs] at ih
    by_cases h : a.2 = k
    · have hcomp : ((fun p : (Nat × KeyT) × (Nat × KeyT) => p.1.2 == k) ∘
          (fun b => (a, b))) = fun _ => true := by
        funext b
        simp [Function.comp, h]
      rw [hcomp, List.filter_true, List.length_map, List.filter_cons_of_pos (by simp [h]),
        keyMatches, h, ih]
      simp only [List.length_cons]
      ring
    · have hcomp : ((fun p : (Nat × KeyT) × (Nat × KeyT) => p.1.2 == k) ∘
          (fun b => (a, b))) = fun _ => false := by
        funext b
        simp [Function.comp, h]
      rw [hcomp, List.filter_false, List.filter_cons_of_neg (by simp [h]), ih]
      simp

/-- C8.  Duplicate-key cross-product: for any key tuple, the number of `both`
pairs carrying it equals the number of its occurrences in the source table
times the number in the target table (so 2 source copies and 1 target copy
give 2 pairs). -/
theorem C8_duplicate_cross_product (R : Run) (k : KeyT) :
    ((bothRecs (srcN R) (tgtN R)).filter (fun p => p.1.2 == k)).length =
      ((srcN R).filter (fun a => a.2 == k)).length *
        ((tgtN R).filter (fun b => b.2 == k)).length :=
  bothRecs_count_key _ _ k

theorem cBoth_run1 (o : NormOpts) (v w : String) :
    cBoth (run1 o v w) = if normalizeCell o w = normalizeCell o v then 1 else 0 := by
  by_cases h : normalizeCell o w = normalizeCell o v
  · simp [cBoth, run1, srcN, tgtN, nTable, normRows, nrmRow, bothRecs, keyMatches,
      List.enum, h]
  · simp [cBoth, run1, srcN, tgtN, nTable, normRows, nrmRow, bothRecs, keyMatches,
      List.enum, h]

/-- C2.  Matching/diagnosis consistency: two cells normalize equal under the
given options exactly when the Row Matcher, run on the one-row tables with
those cells as the sole key column, classifies them as one `both` pair; and
normalize-equal cells are never counted as differing by the per-column
mismatch test, which applies the same `normalizeCell`. -/
theorem C2_matching_diagnosis_consistency (o : NormOpts) (v w : String) :
    (normalizeCell o v = normalizeCell o w ↔ cBoth (run1 o v w) = 1) ∧
    (normalizeCell o v = normalizeCell o w → cellsDiffer o v w = false) := by
  constructor
  · rw [cBoth_run1]
    by_cases h : normalizeCell o w = normalizeCell o v
    · simp [h]
    · simp [h, Ne.symm h]
  · intro h
    simp [cellsDiffer, h]

/-- Witness for C2 at concrete cells: `" A "` and `"a"` normalize equal with
trimming and case-insensitivity on, match as `both`, and do not count as a
mismatch. -/
theorem C2_matching_diagnosis_consistency_witness :
    normalizeCell ⟨true, true⟩ " A " = normalizeCell ⟨true, true⟩ "a" ∧
    cBoth (run1 ⟨true, true⟩ " A " "a") = 1 ∧
    cellsDiffer ⟨true, true⟩ " A " "a" = false := by
  have h := C2_matching_diagnosis_consistency ⟨true, true⟩ " A " "a"
  have heq : normalizeCell ⟨true, true⟩ " A " = normalizeCell ⟨true, true⟩ "a" := by decide
  exact ⟨heq, h.1.1 heq, h.2 heq⟩

theorem pctOf_zero (n : Nat) : pctOf n 0 = 0 := by
  simp [pctOf]

theorem pctOf_eq_div (n d : Nat) (hd : d ≠ 0) :
    pctOf n d = (n : ℚ) * 100 / (d : ℚ) := by
  rw [pctOf, if_neg hd, Rat.mkRat_eq_divInt, Rat.divInt_eq_div]
  push_cast
  ring

theorem pctOf_nonneg (n d : Nat) : 0 ≤ pctOf n d := by
  by_cases hd : d = 0
  · simp [hd, pctOf_zero]
  · rw [pctOf_eq_div n d hd]
    positivity

theorem pctOf_le_100 (n d : Nat) (h : n ≤ d) : pctOf n d ≤ 100 := by
  by_cases hd : d = 0
  · simp [hd, pctOf_zero]
  · rw [pctOf_eq_div n d hd]
    rw [div_le_iff₀ (by positivity)]
    have : (n : ℚ) ≤ (d : ℚ) := by exact_mod_cast h
    nlinarith

theorem cBoth_le_totalUnion (R : Run) : cBoth R ≤ totalUnion R := by
  rw [totalUnion]
  omega

/-- C10.  The match percentage is `100 * c_both / (c_both + c_src + c_tgt)`,
defined as 0 when the denominator is zero, hence always within [0, 100]; and
under duplicate keys the denominator is pair-based and can exceed both table
sizes, as the concrete duplicate-key run shows. -/
theorem C10_match_percentage (R : Run) :
    (totalUnion R = 0 → matchPct R = 0) ∧
    (totalUnion R ≠ 0 →
      matchPct R = (cBoth R : ℚ) * 100 / (totalUnion R : ℚ)) ∧
    0 ≤ matchPct R ∧ matchPct R ≤ 100 ∧
    (totalUnion runDup = 4 ∧ runDup.srcKeys.length = 2 ∧ runDup.tgtKeys.length = 2) := by
  refine ⟨?_, ?_, ?_, ?_, by decide, by decide, by decide⟩
  · intro h
    rw [matchPct, h, pctOf_zero]
  · intro h
    rw [matchPct, pctOf_eq_div _ _ h]
  · exact pctOf_nonneg _ _
  · exact pctOf_le_100 _ _ (cBoth_le_totalUnion R)

/-- Witness for C10 at a concrete run with a non-zero denominator. -/
theorem C10_match_percentage_witness :
    totalUnion runDup ≠ 0 ∧
    matchPct runDup = (cBoth runDup : ℚ) * 100 / (totalUnion runDup : ℚ) :=
  ⟨by decide, (C10_match_percentage runDup).2.1 (by decide)⟩

/-! ## The drop-one sensitivity loop -/

theorem bestAltAux_fst_mono (mp : Rat) (f : String → Rat) :
    ∀ (l : List String) (acc : Rat × Option String), acc.1 ≤ (bestAltAux mp f l acc).1 := by
  intro l
  induction l with
  | nil => intro acc; exact le_refl _
  | cons d rest ih =>
    intro acc
    rw [bestAltAux]
    by_cases h : mp < f d ∧ acc.1 < f d
    · rw [if_pos h]
      exact le_trans (le_of_lt h.2) (ih _)
    · rw [if_neg h]
      exact ih acc

theorem bestAltAux_snd_isSome (mp : Rat) (f : String → Rat) :
    ∀ (l : List String) (acc : Rat × Option String), acc.2.isSome →
      (bestAltAux mp f l acc).2.isSome := by
  intro l
  induction l with
  | nil => intro acc h; exact h
  | cons d rest ih =>
    intro acc h
    rw [bestAltAux]
    by_cases hc : mp < f d ∧ acc.1 < f d
    · rw [if_pos hc]; exact ih _ rfl
    · rw [if_neg hc]; exact ih acc h

theorem bestAltAux_max (mp : Rat) (f : String → Rat) :
    ∀ (l : List String) (acc : Rat × Option String), ∀ c ∈ l, mp < f c →
      f c ≤ (bestAltAux mp f l acc).1 := by
  intro l
  induction l with
  | nil => intro acc c hc; exact absurd hc (List.not_mem_nil c)
  | cons d rest ih =>
    intro acc c hc himp
    rw [bestAltAux]
    by_cases h : mp < f d ∧ acc.1 < f d
    · rw [if_pos h]
      rcases List.mem_cons.1 hc with rfl | hcr
      · exact le_trans (le_refl _) (bestAltAux_fst_mono mp f rest (f c, some c))
      · exact ih _ c hcr himp
    · rw [if_neg h]
      rcases List.mem_cons.1 hc with rfl | hcr
      · have : f c ≤ acc.1 := by
          rcases not_and_or.1 h with h1 | h2
          · exact absurd himp h1
          · exact le_of_not_lt h2
        exact le_trans this (bestAltAux_fst_mono mp f rest acc)
      · exact ih acc c hcr himp

theorem bestAltAux_none_spec (mp : Rat) (f : String → Rat) :
    ∀ (l : List String) (acc : Rat × Option String) (p : Rat),
      bestAltAux mp f l acc = (p, none) →
      acc = (p, none) ∧ ∀ c ∈ l, ¬(mp < f c ∧ acc.1 < f c) := by
  intro l
  induction l with
  | nil =>
    intro acc p h
    exact ⟨h, by intro c hc; exact absurd hc (List.not_mem_nil c)⟩
  | cons d rest ih =>
    intro acc p h
    rw [bestAltAux] at h
    by_cases hc : mp < f d ∧ acc.1 < f d
    · rw [if_pos hc] at h
      have := bestAltAux_snd_isSome mp f rest (f d, some d) rfl
      rw [h] at this
      exact absurd this (by simp)
    · rw [if_neg hc] at h
      rcases ih acc p h with ⟨h1, h2⟩
      refine ⟨h1, ?_⟩
      intro c hcm
      rcases List.mem_cons.1 hcm with rfl | hcr
      · exact hc
      · exact h2 c hcr

theorem bestAltAux_some_spec (mp : Rat) (f : String → Rat) :
    ∀ (l : List String) (acc : Rat × Option String) (p : Rat) (c : String),
      bestAltAux mp f l acc = (p, some c) →
      acc = (p, some c) ∨
      (c ∈ l ∧ p = f c ∧ mp < p ∧ acc.1 < p ∧
        ∃ pre post, l = pre ++ c :: post ∧ ∀ c' ∈ pre, f c' < p) := by
  intro l
  induction l with
  | nil => intro acc p c h; exact Or.inl h
  | cons d rest ih =>
    intro acc p c h
    rw [bestAltAux] at h
    by_cases hc : mp < f d ∧ acc.1 < f d
    · rw [if_pos hc] at h
      rcases ih _ p c h with heq | ⟨hcr, hp, hmp, hacc, pre, post, hsplit, hpre⟩
      · rcases Prod.mk.injEq .. ▸ heq with ⟨hp, hcd⟩
        rcases Option.some.injEq .. ▸ hcd with rfl
        refine Or.inr ⟨List.mem_cons_self _ _, hp.symm ▸ rfl, ?_, ?_, [], rest, rfl, ?_⟩
        · rw [← hp]; exact hc.1
        · rw [← hp]; exact hc.2
        · intro c' hc'; exact absurd hc' (List.not_mem_nil c')
      · refine Or.inr ⟨List.mem_cons_of_mem d hcr, hp, hmp, lt_trans hc.2 hacc,
          d :: pre, post, by rw [hsplit, List.cons_append], ?_⟩
        intro c' hc'
        rcases List.mem_cons.1 hc' with rfl | hc'r
        · exact hacc
        · exact hpre c' hc'r
    · rw [if_neg hc] at h
      rcases ih acc p c h with heq | ⟨hcr, hp, hmp, hacc, pre, post, hsplit, hpre⟩
      · exact Or.inl heq
      · refine Or.inr ⟨List.mem_cons_of_mem d hcr, hp, hmp, hacc,
          d :: pre, post, by rw [hsplit, List.cons_append], ?_⟩
        intro c' hc'
        rcases List.mem_cons.1 hc' with rfl | hc'r
        · rcases not_and_or.1 hc with h1 | h2
          · exact lt_of_le_of_lt (le_of_not_lt h1) hmp
          · exact lt_of_le_of_lt (le_of_not_lt h2) hacc
        · exact hpre c' hc'r

/-- C7.  Drop-one key sensitivity: the analysis leaves `(0, None)` unless the
match percentage is below 100 and more than one key column is selected; a
recommended column is a key column whose removal strictly improves the match
percentage, carries its recomputed percentage, is maximal among all improving
candidates, and is the first candidate in input order attaining that maximum;
when it recommends nothing, no candidate improves; and the primary comparison
statistics are those of the full key list regardless of the analysis. -/
theorem C7_drop_one_sensitivity (R : Run) :
    ((¬(matchPct R < 100 ∧ 1 < R.keyCols.length)) → dropOneRec R = (0, none)) ∧
    (∀ p c, dropOneRec R = (p, some c) →
      c ∈ R.keyCols ∧ p = tempPct R c ∧ matchPct R < p ∧
      (∀ c' ∈ R.keyCols, matchPct R < tempPct R c' → tempPct R c' ≤ p) ∧
      ∃ pre post, R.keyCols = pre ++ c :: post ∧ ∀ c' ∈ pre, tempPct R c' < p) ∧
    ((matchPct R < 100 ∧ 1 < R.keyCols.length ∧ (dropOneRec R).2 = none) →
      ∀ c ∈ R.keyCols, ¬ matchPct R < tempPct R c) ∧
    (cBoth R = (bothRecs (nTable R.opts R.srcKeys) (nTable R.opts R.tgtKeys)).length ∧
      matchPct R = pctOf (cBoth R) (totalUnion R)) := by
  refine ⟨?_, ?_, ?_, rfl, rfl⟩
  · intro h
    rw [dropOneRec, if_neg h]
  · intro p c h
    by_cases hg : matchPct R < 100 ∧ 1 < R.keyCols.length
    · rw [dropOneRec, if_pos hg] at h
      rcases bestAltAux_some_spec _ _ _ _ _ _ h with heq | ⟨hcm, hp, hmp, _, hfirst⟩
      · exact absurd (congrArg Prod.snd heq) (by simp)
      · refine ⟨hcm, hp, hmp, ?_, hfirst⟩
        intro c' hc' himp
        have := bestAltAux_max (matchPct R) (tempPct R) R.keyCols (0, none) c' hc' himp
        rw [h] at this
        exact this
    · rw [dropOneRec, if_neg hg] at h
      exact absurd (congrArg Prod.snd h) (by simp)
  · rintro ⟨h1, h2, hnone⟩
    intro c hc himp
    rw [dropOneRec, if_pos ⟨h1, h2⟩] at hnone
    rcases hr : bestAltAux (matchPct R) (tempPct R) R.keyCols (0, none) with ⟨p, oc⟩
    rw [hr] at hnone
    simp only at hnone
    subst hnone
    rcases bestAltAux_none_spec _ _ _ _ _ hr with ⟨_, hall⟩
    refine hall c hc ⟨himp, ?_⟩
    exact lt_of_le_of_lt (pctOf_nonneg _ _) himp

/-- Witness for C7: on the two-key run the analysis recommends dropping `r`,
whose removal lifts the match percentage from 0 to 100. -/
theorem C7_drop_one_sensitivity_witness :
    dropOneRec runK2 = (100, some "r") ∧ "r" ∈ runK2.keyCols ∧
    matchPct runK2 < tempPct runK2 "r" ∧
    (∀ c' ∈ runK2.keyCols, matchPct runK2 < tempPct runK2 c' →
      tempPct runK2 c' ≤ 100) := by
  have hrec : dropOneRec runK2 = (100, some "r") := by decide
  have h := (C7_drop_one_sensitivity runK2).2.1 100 "r" hrec
  exact ⟨hrec, h.1, h.2.1 ▸ h.2.2.1, h.2.2.2.1⟩

/-! ## The mismatch-diagnosis section -/

theorem matchPct_eq_zero_iff (R : Run) : matchPct R = 0 ↔ cBoth R = 0 := by
  rw [matchPct]
  constructor
  · intro h
    by_cases hd : totalUnion R = 0
    · have := cBoth_le_totalUnion R
      omega
    · rw [pctOf, if_neg hd] at h
      have h100 : ((100 * cBoth R : Nat) : Int) = 0 := by
        exact_mod_cast (Rat.mkRat_eq_zero hd).1 h
      have : 100 * cBoth R = 0 := by exact_mod_cast h100
      omega
  · intro h
    rw [h, pctOf]
    by_cases hd : totalUnion R = 0
    · rw [if_pos hd]
    · rw [if_neg hd]
      simp

theorem mmEntries_of_cBoth_zero (R : Run) (h : cBoth R = 0) : mmEntries R = [] := by
  have hnil : bothRecs (srcN R) (tgtN R) = [] := List.length_eq_zero.1 h
  have hcnt : ∀ i, mmCountAt R i = 0 := by
    intro i
    simp [mmCountAt, mmPairs, hnil]
  have hfil : (R.valueCols.enum.map (fun p => (p.2, mmCountAt R p.1))).filter
      (fun e => 0 < e.2) = [] := by
    rw [List.filter_eq_nil_iff]
    rintro e he
    rcases List.mem_map.1 he with ⟨p, _, rfl⟩
    simp [hcnt p.1]
  rw [mmEntries, hfil]
  rfl

/-- C6 (amended).  For every run whose match percentage is below 100, the
displayed mismatch report is exactly the per-column mismatch counts over the
matched pairs: a permutation of the positive-count value columns, sorted by
count descending, zero-count columns omitted, and empty (not an error) when
there are no non-key common columns. -/
theorem C6_mismatch_report (R : Run) (h : matchPct R < 100) :
    reportCounts (diagSection R) = mmEntries R ∧
    List.Perm (mmEntries R)
      ((R.valueCols.enum.map (fun p => (p.2, mmCountAt R p.1))).filter
        (fun e => 0 < e.2)) ∧
    List.Sorted (fun a b : String × Nat => b.2 ≤ a.2) (mmEntries R) ∧
    (∀ e ∈ mmEntries R, 0 < e.2) ∧
    (R.valueCols = [] → mmEntries R = []) := by
  haveI hTot : IsTotal (String × Nat) (fun a b => b.2 ≤ a.2) :=
    ⟨fun a b => le_total b.2 a.2⟩
  haveI hTrans : IsTrans (String × Nat) (fun a b => b.2 ≤ a.2) :=
    ⟨fun _ _ _ h1 h2 => le_trans h2 h1⟩
  have hperm : List.Perm (mmEntries R) ((R.valueCols.enum.map
      (fun p => (p.2, mmCountAt R p.1))).filter (fun e => 0 < e.2)) :=
    List.perm_insertionSort _ _
  refine ⟨?_, hperm, List.sorted_insertionSort _ _, ?_, ?_⟩
  · have hne : matchPct R ≠ 100 := ne_of_lt h
    by_cases h0 : matchPct R = 0
    · have hcb : cBoth R = 0 := (matchPct_eq_zero_iff R).1 h0
      have hmm := mmEntries_of_cBoth_zero R hcb
      rw [diagSection, if_neg hne, if_pos h0]
      cases hr : recoMsg R with
      | some pr =>
        cases pr
        simp [reportCounts, hmm]
      | none =>
        simp [reportCounts, hmm]
    · rw [diagSection, if_neg hne, if_neg h0]
      by_cases hv : R.valueCols = []
      · have hmm : mmEntries R = [] := by
          rw [mmEntries, hv]
          rfl
        rw [if_neg (by simp [hv])]
        simp [reportCounts, hmm]
      · have hcb : cBoth R ≠ 0 := fun hc => h0 ((matchPct_eq_zero_iff R).2 hc)
        have hbn : (bothRecs (srcN R) (tgtN R)).isEmpty = false := by
          rw [Bool.eq_false_iff]
          intro hemp
          exact hcb (by rw [cBoth, List.isEmpty_iff.1 hemp]; rfl)
        rw [if_pos ⟨hv, hbn⟩]
        simp [reportCounts]
  · intro e he
    have hmem := hperm.mem_iff.1 he
    have := (List.mem_filter.1 hmem).2
    exact of_decide_eq_true this
  · intro hv
    rw [mmEntries, hv]
    rfl

/-- Counterexample to C6 as stated: a run at 100% match whose only value
column differs on its matched pair; the claim demands the column be reported
with count 1, but the code's mismatch report is empty. -/
theorem C6_mismatch_report_cex :
    matchPct runVal = 100 ∧ runVal.valueCols = ["x"] ∧ mmCountAt runVal 0 = 1 ∧
    reportCounts (diagSection runVal) = [] := by decide

/-- Witness for C6 at a concrete run with an intermediate percentage. -/
theorem C6_mismatch_report_witness :
    matchPct runMid < 100 ∧ reportCounts (diagSection runMid) = mmEntries runMid ∧
    mmEntries runMid = [("x", 1)] :=
  ⟨by decide, (C6_mismatch_report runMid (by decide)).1, by decide⟩

/-- C9 (amended).  A run in which zero row pairs match surfaces the per-key
sample excerpts — the first three distinct normalized values of each key
column on each side — unless a drop-one recommendation is shown, in which
case the recommendation replaces them. -/
theorem C9_zero_match_samples (R : Run) (h : cBoth R = 0) (hr : recoMsg R = none) :
    diagSection R = DiagSection.zeroSamples (samplesOf R) ∧
    samplesOf R = R.keyCols.enum.map (fun p =>
      (p.2, sampleCol (normRows R.opts R.srcKeys) p.1,
        sampleCol (normRows R.opts R.tgtKeys) p.1)) := by
  refine ⟨?_, rfl⟩
  have h0 : matchPct R = 0 := (matchPct_eq_zero_iff R).2 h
  have hne : matchPct R ≠ 100 := by
    rw [h0]
    norm_num
  rw [diagSection, if_neg hne, if_pos h0, hr]

/-- Counterexample to C9 as stated: on the two-key run nothing matches, yet
the report carries no sample excerpts, because the drop-one recommendation
(remove `r`) takes their place. -/
theorem C9_zero_match_samples_cex :
    cBoth runK2 = 0 ∧ sampleList (diagSection runK2) = none := by decide

/-- Witness for C9 at a zero-match run with no recommendation. -/
theorem C9_zero_match_samples_witness :
    cBoth runDisj = 0 ∧ recoMsg runDisj = none ∧
    diagSection runDisj = DiagSection.zeroSamples (samplesOf runDisj) :=
  ⟨by decide, by decide, (C9_zero_match_samples runDisj (by decide) (by decide)).1⟩

/-! ## Character-level facts -/

theorem toNat_ofNat_of_lt {n : Nat} (h : n < 55296) : (Char.ofNat n).toNat = n := by
  rw [Char.ofNat, dif_pos (Or.inl h)]
  rfl

theorem toLower_eq (c : Char) :
    c.toLower = if c.toNat ≥ 65 ∧ c.toNat ≤ 90 then Char.ofNat (c.toNat + 32) else c := rfl

theorem toLower_of_lt {c : Char} (h : c.toNat < 65) : c.toLower = c := by
  rw [toLower_eq, if_neg (by omega)]

theorem toLower_toLower (c : Char) : c.toLower.toLower = c.toLower := by
  rw [toLower_eq c]
  by_cases h : c.toNat ≥ 65 ∧ c.toNat ≤ 90
  · rw [if_pos h, toLower_eq, toNat_ofNat_of_lt (by omega), if_neg (by omega)]
  · rw [if_neg h, toLower_eq, if_neg h]

theorem char_eq_iff_toNat {c d : Char} : c = d ↔ c.toNat = d.toNat := by
  constructor
  · intro h; rw [h]
  · intro h
    have : Char.ofNat c.toNat = Char.ofNat d.toNat := by rw [h]
    rwa [Char.ofNat_toNat, Char.ofNat_toNat] at this

theorem isWs_iff {c : Char} :
    isWs c = true ↔ c.toNat = 32 ∨ c.toNat = 9 ∨ c.toNat = 13 ∨ c.toNat = 10 := by
  rw [isWs, Char.isWhitespace]
  simp only [Bool.or_eq_true, decide_eq_true_eq]
  rw [char_eq_iff_toNat, char_eq_iff_toNat, char_eq_iff_toNat, char_eq_iff_toNat]
  have h1 : (' ' : Char).toNat = 32 := rfl
  have h2 : ('\t' : Char).toNat = 9 := rfl
  have h3 : ('\r' : Char).toNat = 13 := rfl
  have h4 : ('\n' : Char).toNat = 10 := rfl
  rw [h1, h2, h3, h4]
  tauto

theorem isWs_toLower (c : Char) : isWs c.toLower = isWs c := by
  rw [toLower_eq]
  by_cases h : c.toNat ≥ 65 ∧ c.toNat ≤ 90
  · rw [if_pos h]
    have h1 : (Char.ofNat (c.toNat + 32)).toNat = c.toNat + 32 :=
      toNat_ofNat_of_lt (by omega)
    have hl : isWs (Char.ofNat (c.toNat + 32)) = false := by
      rw [← Bool.not_eq_true, isWs_iff, h1]
      omega
    have hr : isWs c = false := by
      rw [← Bool.not_eq_true, isWs_iff]
      omega
    rw [hl, hr]
  · rw [if_neg h]

theorem uint32_le_iff {a b : UInt32} : a ≤ b ↔ a.toNat ≤ b.toNat := by
  rw [UInt32.le_def, BitVec.le_def]
  rfl

theorem isDigit_iff {c : Char} : c.isDigit = true ↔ 48 ≤ c.toNat ∧ c.toNat ≤ 57 := by
  rw [Char.isDigit]
  simp only [Bool.and_eq_true, decide_eq_true_eq]
  rw [ge_iff_le, uint32_le_iff, uint32_le_iff]
  have h48 : (48 : UInt32).toNat = 48 := rfl
  have h57 : (57 : UInt32).toNat = 57 := rfl
  rw [h48, h57]
  exact Iff.rfl

theorem toLower_of_digit {c : Char} (h : c.isDigit = true) : c.toLower = c :=
  toLower_of_lt (by rcases isDigit_iff.1 h with ⟨_, h2⟩; omega)

theorem dChar_dVal {c : Char} (h : c.isDigit = true) : dChar (dVal c) = c := by
  rcases isDigit_iff.1 h with ⟨h1, _⟩
  rw [dChar, dVal, Nat.add_sub_cancel' h1]
  exact Char.ofNat_toNat c

theorem dVal_lt_10 {c : Char} (h : c.isDigit = true) : dVal c < 10 := by
  rcases isDigit_iff.1 h with ⟨_, h2⟩
  rw [dVal]
  omega

/-! ## Stripping, collapsing, lowercasing: list-level facts -/

theorem stripChars_eq (l : List Char) :
    stripChars l = List.rdropWhile isWs (l.dropWhile isWs) := rfl

theorem collapseAux_cons_of_ws_true {c : Char} (h : isWs c = true) (r : List Char) :
    collapseAux true (c :: r) = collapseAux true r := by
  rw [collapseAux, if_pos h, if_pos rfl]

theorem collapseAux_cons_of_ws_false {c : Char} (h : isWs c = true) (r : List Char) :
    collapseAux false (c :: r) = ' ' :: collapseAux true r := by
  rw [collapseAux, if_pos h, if_neg (by simp)]

theorem collapseAux_cons_of_not_ws {c : Char} (h : isWs c = false) (r : List Char)
    (b : Bool) : collapseAux b (c :: r) = c :: collapseAux false r := by
  rw [collapseAux, if_neg (by simp [h])]

theorem dropWhile_head_false {p : Char → Bool} :
    ∀ (l : List Char) {c : Char} {t : List Char}, l.dropWhile p = c :: t → p c = false := by
  intro l
  induction l with
  | nil => intro c t h; exact absurd h (by simp)
  | cons a r ih =>
    intro c t h
    by_cases hp : p a
    · rw [List.dropWhile_cons_of_pos hp] at h
      exact ih h
    · rw [List.dropWhile_cons_of_neg hp] at h
      injection h with h1 _
      subst h1
      simpa using hp

theorem mem_dropWhile_of_not {p : Char → Bool} {l : List Char} {c : Char}
    (hm : c ∈ l) (hp : p c = false) : c ∈ l.dropWhile p := by
  have hsplit := List.takeWhile_append_dropWhile p l
  rcases List.mem_append.1 (hsplit ▸ hm) with htk | hdr
  · exact absurd (List.mem_takeWhile_imp htk) (by simp [hp])
  · exact hdr

theorem mem_stripChars_of_not {l : List Char} {c : Char}
    (hm : c ∈ l) (hp : isWs c = false) : c ∈ stripChars l := by
  rw [stripChars_eq, List.rdropWhile, List.mem_reverse]
  exact mem_dropWhile_of_not (List.mem_reverse.2 (mem_dropWhile_of_not hm hp)) hp

theorem dropWhile_eq_self_of_noWs {l : List Char} (h : ∀ c ∈ l, isWs c = false) :
    l.dropWhile isWs = l := by
  cases l with
  | nil => rfl
  | cons c r => exact List.dropWhile_cons_of_neg (by simp [h c (List.mem_cons_self c r)])

theorem stripChars_of_noWs {l : List Char} (h : ∀ c ∈ l, isWs c = false) :
    stripChars l = l := by
  rw [stripChars_eq, dropWhile_eq_self_of_noWs h, List.rdropWhile,
    dropWhile_eq_self_of_noWs (by intro c hc; exact h c (List.mem_reverse.1 hc)),
    List.reverse_reverse]

theorem collapseAux_of_noWs {l : List Char} (h : ∀ c ∈ l, isWs c = false) :
    ∀ b, collapseAux b l = l := by
  induction l with
  | nil => intro b; rfl
  | cons c r ih =>
    intro b
    rw [collapseAux_cons_of_not_ws (h c (List.mem_cons_self c r)) r b,
      ih (fun c' hc' => h c' (List.mem_cons_of_mem _ hc')) false]

theorem collapse_noWs_rev : ∀ {l : List Char},
    (∀ c ∈ collapseAux false l, isWs c = false) → ∀ c ∈ l, isWs c = false := by
  intro l
  induction l with
  | nil => intro _ c hc; exact absurd hc (List.not_mem_nil c)
  | cons d r ih =>
    intro h c hc
    by_cases hd : isWs d
    · exfalso
      have hmem : (' ' : Char) ∈ collapseAux false (d :: r) := by
        rw [collapseAux_cons_of_ws_false hd]
        exact List.mem_cons_self _ _
      have := h _ hmem
      simp [isWs, Char.isWhitespace] at this
    · replace hd := Bool.not_eq_true _ ▸ hd
      rw [collapseAux_cons_of_not_ws hd] at h
      rcases List.mem_cons.1 hc with rfl | hcr
      · exact hd
      · exact ih (fun c' hc' => h c' (List.mem_cons_of_mem _ hc')) c hcr

theorem lowerL_idem (l : List Char) : lowerL (lowerL l) = lowerL l := by
  rw [lowerL, lowerL, List.map_map]
  exact List.map_congr_left (fun c _ => toLower_toLower c)

theorem lowerL_dropWhile (l : List Char) :
    lowerL (l.dropWhile isWs) = (lowerL l).dropWhile isWs := by
  induction l with
  | nil => rfl
  | cons c r ih =>
    have hmap : lowerL (c :: r) = Char.toLower c :: lowerL r := rfl
    by_cases h : isWs c
    · rw [List.dropWhile_cons_of_pos h, hmap, List.dropWhile_cons_of_pos
        (show isWs (Char.toLower c) = true by rw [isWs_toLower]; exact h)]
      exact ih
    · rw [List.dropWhile_cons_of_neg h, hmap, List.dropWhile_cons_of_neg
        (show ¬isWs (Char.toLower c) = true by rw [isWs_toLower]; exact h)]

theorem lowerL_reverse (l : List Char) : lowerL l.reverse = (lowerL l).reverse :=
  List.map_reverse _ _

theorem lowerL_stripChars (l : List Char) :
    lowerL (stripChars l) = stripChars (lowerL l) := by
  rw [stripChars_eq, stripChars_eq, List.rdropWhile, List.rdropWhile,
    lowerL_reverse, lowerL_dropWhile, lowerL_reverse, lowerL_dropWhile]

theorem lowerL_collapseAux : ∀ (l : List Char) (b : Bool),
    lowerL (collapseAux b l) = collapseAux b (lowerL l) := by
  intro l
  induction l with
  | nil => intro b; rfl
  | cons c r ih =>
    intro b
    have hmap : lowerL (c :: r) = Char.toLower c :: lowerL r := rfl
    by_cases h : isWs c
    · have hlow : isWs (Char.toLower c) = true := by rw [isWs_toLower]; exact h
      cases b with
      | true =>
        rw [collapseAux_cons_of_ws_true h, hmap, collapseAux_cons_of_ws_true hlow]
        exact ih true
      | false =>
        rw [collapseAux_cons_of_ws_false h, hmap, collapseAux_cons_of_ws_false hlow]
        have hsp : lowerL (' ' :: collapseAux true r) =
            ' ' :: lowerL (collapseAux true r) := rfl
        rw [hsp, ih true]
    · replace h := Bool.not_eq_true _ ▸ h
      have hlow : isWs (Char.toLower c) = false := by rw [isWs_toLower]; exact h
      rw [collapseAux_cons_of_not_ws h, hmap, collapseAux_cons_of_not_ws hlow]
      have hcons : lowerL (c :: collapseAux false r) =
          Char.toLower c :: lowerL (collapseAux false r) := rfl
      rw [hcons, ih false]

theorem collapseAux_idem : ∀ (l : List Char) (b : Bool),
    collapseAux b (collapseAux b l) = collapseAux b l := by
  intro l
  induction l with
  | nil => intro b; rfl
  | cons c r ih =>
    intro b
    by_cases h : isWs c
    · cases b with
      | true =>
        rw [collapseAux_cons_of_ws_true h]
        exact ih true
      | false =>
        rw [collapseAux_cons_of_ws_false h,
          collapseAux_cons_of_ws_false (show isWs ' ' = true by rfl), ih true]
    · replace h := Bool.not_eq_true _ ▸ h
      rw [collapseAux_cons_of_not_ws h, collapseAux_cons_of_not_ws h, ih false]

theorem collapse_true_nil : ∀ {l : List Char},
    collapseAux true l = [] → ∀ c ∈ l, isWs c = true := by
  intro l
  induction l with
  | nil => intro _ c hc; exact absurd hc (List.not_mem_nil c)
  | cons d r ih =>
    intro h c hc
    by_cases hd : isWs d
    · rw [collapseAux_cons_of_ws_true hd] at h
      rcases List.mem_cons.1 hc with rfl | hcr
      · exact hd
      · exact ih h c hcr
    · replace hd := Bool.not_eq_true _ ▸ hd
      rw [collapseAux_cons_of_not_ws hd] at h
      exact absurd h (by simp)

theorem getLast?_collapse : ∀ (l : List Char) (b : Bool),
    (∀ c, l.getLast? = some c → isWs c = false) →
    ∀ c, (collapseAux b l).getLast? = some c → isWs c = false := by
  intro l
  induction l with
  | nil =>
    intro b _ c hc
    simp [collapseAux] at hc
  | cons d r ih =>
    intro b h c hc
    cases r with
    | nil =>
      have hwd : isWs d = false := h d rfl
      rw [collapseAux_cons_of_not_ws hwd] at hc
      have hnil : collapseAux false ([] : List Char) = [] := rfl
      rw [hnil] at hc
      have hcd : c = d := by simpa using hc.symm
      rw [hcd]
      exact hwd
    | cons r1 rr =>
      have hr : ∀ c, (r1 :: rr).getLast? = some c → isWs c = false := by
        intro c hc'
        exact h c (by rw [List.getLast?_cons_cons]; exact hc')
      by_cases hd : isWs d
      · cases b with
        | true =>
          rw [collapseAux_cons_of_ws_true hd] at hc
          exact ih true hr c hc
        | false =>
          rw [collapseAux_cons_of_ws_false hd] at hc
          cases hX : collapseAux true (r1 :: rr) with
          | nil =>
            exfalso
            have hws := collapse_true_nil hX
            have hne : (r1 :: rr) ≠ [] := by simp
            have hlast := List.getLast?_eq_getLast (r1 :: rr) hne
            have := hr _ hlast
            rw [hws _ (List.getLast_mem hne)] at this
            exact absurd this (by simp)
          | cons x xs =>
            rw [hX, List.getLast?_cons_cons] at hc
            have := ih true hr c (by rw [hX]; exact hc)
            exact this
      · replace hd := Bool.not_eq_true _ ▸ hd
        rw [collapseAux_cons_of_not_ws hd] at hc
        cases hX : collapseAux false (r1 :: rr) with
        | nil =>
          rw [hX] at hc
          have : c = d := by simpa using hc.symm
          rw [this]
          exact hd
        | cons x xs =>
          rw [hX, List.getLast?_cons_cons] at hc
          exact ih false hr c (by rw [hX]; exact hc)

theorem stripChars_collapse_strip (l : List Char) :
    stripChars (collapseWs (stripChars l)) = collapseWs (stripChars l) := by
  have hdrop : (collapseWs (stripChars l)).dropWhile isWs = collapseWs (stripChars l) := by
    cases hm : stripChars l with
    | nil => rfl
    | cons c t =>
      have hpre : stripChars l <+: l.dropWhile isWs := by
        rw [stripChars_eq]
        exact List.rdropWhile_prefix _ _
      rcases hpre with ⟨s, hs⟩
      rw [hm, List.cons_append] at hs
      have hws : isWs c = false := dropWhile_head_false _ hs.symm
      rw [collapseWs, collapseAux_cons_of_not_ws hws]
      exact List.dropWhile_cons_of_neg (by simp [hws])
  have hlast : ∀ c, (stripChars l).getLast? = some c → isWs c = false := by
    intro c hc
    have hself : List.rdropWhile isWs (stripChars l) = stripChars l := by
      rw [stripChars_eq]
      exact List.rdropWhile_idempotent _ _
    have hne : stripChars l ≠ [] := by
      intro hnil
      rw [hnil] at hc
      simp at hc
    have := (List.rdropWhile_eq_self_iff.1 hself) hne
    have hlast' := List.getLast?_eq_getLast (stripChars l) hne
    rw [hc] at hlast'
    have hceq : c = (stripChars l).getLast hne := by simpa using hlast'
    rw [hceq]
    simpa using this
  have hrd : List.rdropWhile isWs (collapseWs (stripChars l)) =
      collapseWs (stripChars l) := by
    rw [List.rdropWhile_eq_self_iff]
    intro hne
    have hlc := getLast?_collapse (stripChars l) false hlast
    have := hlc _ (List.getLast?_eq_getLast _ hne)
    simpa using this
  rw [stripChars_eq, hdrop, hrd]

theorem trimStepL_idem (l : List Char) : trimStepL (trimStepL l) = trimStepL l := by
  rw [trimStepL, trimStepL, stripChars_collapse_strip, collapseWs, collapseWs,
    collapseAux_idem]

theorem lowerL_trimStepL (l : List Char) :
    lowerL (trimStepL l) = trimStepL (lowerL l) := by
  rw [trimStepL, trimStepL, collapseWs, collapseWs, lowerL_collapseAux, lowerL_stripChars]

/-! ## Fixed-point structure of the normalizer's output -/

theorem isNullTok_iff {l : List Char} :
    isNullTok l = true ↔ stripChars (lowerL l) ∈ nullTokens := by
  simp [isNullTok, List.contains, List.elem_eq_mem]

theorem nullTokens_noWs : ∀ t ∈ nullTokens, ∀ c ∈ t, isWs c = false := by decide

theorem normChars_exists_s3 (o : NormOpts) (x : List Char) :
    ∃ s3, normChars o x =
      (if o.caseData then
        lowerL (if o.trimWs then trimStepL (if isNullTok s3 then [] else s3)
          else if isNullTok s3 then [] else s3)
      else if o.trimWs then trimStepL (if isNullTok s3 then [] else s3)
        else if isNullTok s3 then [] else s3) :=
  ⟨_, rfl⟩

theorem noWs_of_lower_noWs {l : List Char}
    (h : ∀ c ∈ lowerL l, isWs c = false) : ∀ c ∈ l, isWs c = false := by
  intro c hc
  have := h c.toLower (List.mem_map.2 ⟨c, hc, rfl⟩)
  rwa [isWs_toLower] at this

theorem isNullTok_trimStep_false {s3 : List Char} (hnt : isNullTok s3 = false) :
    isNullTok (trimStepL s3) = false := by
  by_contra hcon
  rw [Bool.not_eq_false] at hcon
  have hmem := isNullTok_iff.1 hcon
  have hstrip : stripChars (trimStepL s3) = trimStepL s3 := by
    rw [trimStepL]
    exact stripChars_collapse_strip s3
  rw [← lowerL_stripChars, hstrip] at hmem
  have hws : ∀ c ∈ lowerL (trimStepL s3), isWs c = false :=
    fun c hc => nullTokens_noWs _ hmem c hc
  have hws' : ∀ c ∈ trimStepL s3, isWs c = false := noWs_of_lower_noWs hws
  have hwstrip : ∀ c ∈ stripChars s3, isWs c = false := by
    rw [trimStepL, collapseWs] at hws'
    exact collapse_noWs_rev hws'
  have heq : trimStepL s3 = stripChars s3 := by
    rw [trimStepL, collapseWs]
    exact collapseAux_of_noWs hwstrip false
  rw [heq, lowerL_stripChars] at hmem
  rw [isNullTok_iff.2 hmem] at hnt
  exact absurd hnt (by simp)

theorem isNullTok_lower {l : List Char} : isNullTok (lowerL l) = isNullTok l := by
  rw [isNullTok, isNullTok, ← lowerL_stripChars, ← lowerL_stripChars, lowerL_idem]

/-- Structure of every normalizer output: it is empty, or it is not a
null-equivalent token and is a fixed point of the trim step (when trimming is
on) and of lowercasing (when case-insensitivity is on). -/
theorem normChars_fix (o : NormOpts) (x : List Char) :
    normChars o x = [] ∨
      (isNullTok (normChars o x) = false ∧
        (o.trimWs = true → trimStepL (normChars o x) = normChars o x) ∧
        (o.caseData = true → lowerL (normChars o x) = normChars o x)) := by
  obtain ⟨s3, hy⟩ := normChars_exists_s3 o x
  by_cases hnt : isNullTok s3
  · left
    rw [hy]
    simp only [hnt, if_true]
    rcases o with ⟨cd, tw⟩
    cases cd <;> cases tw <;> rfl
  · right
    replace hnt := Bool.not_eq_true _ ▸ hnt
    rw [hy]
    simp only [hnt, if_false, Bool.false_eq_true]
    rcases o with ⟨cd, tw⟩
    cases cd <;> cases tw <;> simp only [if_true, if_false, Bool.false_eq_true,
      Bool.true_eq_false]
    · exact ⟨hnt, fun h => absurd h (by simp), fun h => absurd h (by simp)⟩
    · exact ⟨isNullTok_trimStep_false hnt, fun _ => trimStepL_idem s3,
        fun h => absurd h (by simp)⟩
    · rw [isNullTok_lower]
      exact ⟨hnt, fun h => absurd h (by simp), fun _ => lowerL_idem s3⟩
    · rw [isNullTok_lower]
      refine ⟨isNullTok_trimStep_false hnt, fun _ => ?_, fun _ => lowerL_idem _⟩
      rw [lowerL_trimStepL, trimStepL_idem]

/-! ## Digit strings: printing and parsing round trips -/

theorem ofDigits_append (l : List Char) (c : Char) :
    ofDigits (l ++ [c]) = 10 * ofDigits l + dVal c := by
  rw [ofDigits, ofDigits, List.foldl_append]
  rfl

theorem allDigits_append {l : List Char} {c : Char}
    (h : allDigits (l ++ [c]) = true) : allDigits l = true ∧ c.isDigit = true := by
  rw [allDigits, List.all_append] at h
  rcases Bool.and_eq_true _ _ ▸ h with ⟨h1, h2⟩
  refine ⟨h1, ?_⟩
  rw [List.all_cons, List.all_nil, Bool.and_true] at h2
  exact h2

theorem ofDigits_lt {l : List Char} (h : allDigits l = true) :
    ofDigits l < 10 ^ l.length := by
  induction l using List.reverseRecOn with
  | nil => simp [ofDigits]
  | append_singleton l c ih =>
    rcases allDigits_append h with ⟨h1, h2⟩
    rw [ofDigits_append, List.length_append, List.length_cons, List.length_nil]
    have hd := dVal_lt_10 h2
    have := ih h1
    calc 10 * ofDigits l + dVal c < 10 * ofDigits l + 10 := by omega
    _ ≤ 10 * 10 ^ l.length := by omega
    _ = 10 ^ (l.length + (0 + 1)) := by ring

theorem toDigitsFixed_ofDigits {l : List Char} (h : allDigits l = true) :
    toDigitsFixed l.length (ofDigits l) = l := by
  induction l using List.reverseRecOn with
  | nil => rfl
  | append_singleton l c ih =>
    rcases allDigits_append h with ⟨h1, h2⟩
    have hd := dVal_lt_10 h2
    rw [List.length_append, List.length_cons, List.length_nil, ofDigits_append]
    rw [toDigitsFixed]
    have hdiv : (10 * ofDigits l + dVal c) / 10 = ofDigits l := by omega
    have hmod : (10 * ofDigits l + dVal c) % 10 = dVal c := by omega
    rw [hdiv, hmod, dChar_dVal h2, ih h1]

theorem allDigits_cons {c : Char} {l : List Char} :
    allDigits (c :: l) = true ↔ c.isDigit = true ∧ allDigits l = true := by
  rw [allDigits, List.all_cons, Bool.and_eq_true, allDigits]

/-- Round trip: a successful date parse reprints to exactly the stripped
input. -/
theorem parseDateL_roundtrip {l : List Char} {t : DateT}
    (h : parseDateL l = some t) : fmtDate t = stripChars l := by
  rw [parseDateL] at h
  split at h
  case h_2 => exact absurd h (by simp)
  case h_1 y1 y2 y3 y4 s1 m1 m2 s2 d1 d2 hm =>
    split at h
    case isFalse => exact absurd h (by simp)
    case isTrue hc =>
      rcases hc with ⟨hs1, hs2, hdig⟩
      injection h with ht
      subst ht
      subst hs1
      subst hs2
      simp only [allDigits, List.all_cons, List.all_nil, Bool.and_eq_true,
        Bool.and_true] at hdig
      obtain ⟨hy1, hy2, hy3, hy4, hm1, hm2, hd1, hd2⟩ := hdig
      have hY : allDigits [y1, y2, y3, y4] = true := by
        simp [allDigits, List.all_cons, hy1, hy2, hy3, hy4]
      have hM : allDigits [m1, m2] = true := by
        simp [allDigits, List.all_cons, hm1, hm2]
      have hD : allDigits [d1, d2] = true := by
        simp [allDigits, List.all_cons, hd1, hd2]
      have hYlt : ofDigits [y1, y2, y3, y4] < 10000 := by
        have := ofDigits_lt hY
        simpa using this
      have hMlt : ofDigits [m1, m2] < 100 := by
        have := ofDigits_lt hM
        simpa using this
      have hDlt : ofDigits [d1, d2] < 100 := by
        have := ofDigits_lt hD
        simpa using this
      have hYr : toDigitsFixed 4 (ofDigits [y1, y2, y3, y4]) = [y1, y2, y3, y4] :=
        toDigitsFixed_ofDigits hY
      have hMr : toDigitsFixed 2 (ofDigits [m1, m2]) = [m1, m2] :=
        toDigitsFixed_ofDigits hM
      have hDr : toDigitsFixed 2 (ofDigits [d1, d2]) = [d1, d2] :=
        toDigitsFixed_ofDigits hD
      rw [fmtDate, Int.toNat_ofNat, Nat.mod_eq_of_lt hYlt, Nat.mod_eq_of_lt hMlt,
        Nat.mod_eq_of_lt hDlt, hYr, hMr, hDr, hm]
      rfl

theorem normChars_eq_skeleton (o : NormOpts) (x : List Char) :
    normChars o x =
      (let s2 : List Char :=
        match parseNumL x with
        | some q =>
          match numToDate q with
          | some d => fmtDate d
          | none => numToStr q
        | none =>
          match parseDateL x with
          | some d => fmtDate d
          | none => x
      let s3 := stripDot0 s2
      let s4 := if isNullTok s3 then [] else s3
      let s5 := if o.trimWs then trimStepL s4 else s4
      if o.caseData then lowerL s5 else s5) := rfl

theorem normChars_self (o : NormOpts) (y : List Char)
    (h1 : parseNumL y = none) (h2 : stripDot0 y = y) (h3 : stripChars y = y)
    (hnull : isNullTok y = false)
    (htrim : o.trimWs = true → trimStepL y = y)
    (hlow : o.caseData = true → lowerL y = y) :
    normChars o y = y := by
  rw [normChars_eq_skeleton]
  simp only [h1]
  rcases hpd : parseDateL y with _ | d
  · simp only [h2, hnull, Bool.false_eq_true, if_false]
    rcases o with ⟨cd, tw⟩
    simp only at htrim hlow
    cases tw with
    | false =>
      cases cd with
      | false => simp
      | true => simp [hlow rfl]
    | true =>
      cases cd with
      | false => simp [htrim rfl]
      | true => simp [htrim rfl, hlow rfl]
  · have hfd : fmtDate d = y := by rw [parseDateL_roundtrip hpd, h3]
    simp only [hfd, h2, hnull, Bool.false_eq_true, if_false]
    rcases o with ⟨cd, tw⟩
    simp only at htrim hlow
    cases tw with
    | false =>
      cases cd with
      | false => simp
      | true => simp [hlow rfl]
    | true =>
      cases cd with
      | false => simp [htrim rfl]
      | true => simp [htrim rfl, hlow rfl]

/-- C4 (amended).  Normalization is idempotent on every value whose
normalized form does not parse as a number, is not changed by the trailing
`.0` strip, and carries no surrounding whitespace.  (The unamended claim
fails: the `\.0$` substitution of line 118 can strip a suffix from an
already-normalized value, and a date string uncovered by that strip or by
whitespace stripping can reparse on the second pass — see the
counterexample.) -/
theorem C4_normalization_idempotence (o : NormOpts) (x : String)
    (h1 : parseNumL (normalizeCell o x).data = none)
    (h2 : stripDot0 (normalizeCell o x).data = (normalizeCell o x).data)
    (h3 : stripChars (normalizeCell o x).data = (normalizeCell o x).data) :
    normalizeCell o (normalizeCell o x) = normalizeCell o x := by
  have hy : (normalizeCell o x).data = normChars o x.data := rfl
  rw [hy] at h1 h2 h3
  rcases normChars_fix o x.data with hnil | ⟨hnull, htrim, hlow⟩
  · have hmk : normalizeCell o x = ⟨[]⟩ := congrArg String.mk hnil
    rw [hmk]
    rcases o with ⟨cd, tw⟩
    cases cd <;> cases tw <;> rfl
  · show (⟨normChars o (normChars o x.data)⟩ : String) = ⟨normChars o x.data⟩
    rw [normChars_self o _ h1 h2 h3 hnull htrim hlow]

/-- Counterexample to C4 as stated: normalizing `x.0.0` yields `x.0`, whose
second normalization strips again to `x`. -/
theorem C4_normalization_idempotence_cex :
    normalizeCell ⟨false, false⟩ "x.0.0" = "x.0" ∧
    normalizeCell ⟨false, false⟩ (normalizeCell ⟨false, false⟩ "x.0.0") = "x" ∧
    normalizeCell ⟨false, false⟩ (normalizeCell ⟨false, false⟩ "x.0.0") ≠
      normalizeCell ⟨false, false⟩ "x.0.0" := by decide

/-- Witness for C4 at a concrete value satisfying the amended hypotheses. -/
theorem C4_normalization_idempotence_witness :
    parseNumL (normalizeCell ⟨true, true⟩ "hello  World").data = none ∧
    stripDot0 (normalizeCell ⟨true, true⟩ "hello  World").data =
      (normalizeCell ⟨true, true⟩ "hello  World").data ∧
    stripChars (normalizeCell ⟨true, true⟩ "hello  World").data =
      (normalizeCell ⟨true, true⟩ "hello  World").data ∧
    normalizeCell ⟨true, true⟩ (normalizeCell ⟨true, true⟩ "hello  World") =
      normalizeCell ⟨true, true⟩ "hello  World" :=
  ⟨by decide, by decide, by decide,
    C4_normalization_idempotence ⟨true, true⟩ "hello  World" (by decide) (by decide)
      (by decide)⟩

/-! ## The null-equivalent collapse and the numeric-to-date conversion -/

theorem parseNumTail_chars {sgn : Int} {l' : List Char} {q : Rat}
    (h : parseNumTail sgn l' = some q) : ∀ c ∈ l', c.isDigit = true ∨ c = '.' := by
  intro c hc
  rw [parseNumTail] at h
  rcases List.mem_append.1
      ((List.takeWhile_append_dropWhile (fun x : Char => x.isDigit) l') ▸ hc) with h1 | h2
  · exact Or.inl (List.mem_takeWhile_imp h1)
  · rcases hdrop : l'.dropWhile (fun x => x.isDigit) with _ | ⟨b, frac⟩
    · rw [hdrop] at h2
      exact absurd h2 (List.not_mem_nil c)
    · rw [hdrop] at h h2
      split at h
      case h_1 heq => exact absurd heq (by simp)
      case h_3 hne1 hne2 => exact absurd h (by simp)
      case h_2 frac' heq =>
        injection heq with hb hfr
        split at h
        case isFalse => exact absurd h (by simp)
        case isTrue hcond =>
          subst hb
          subst hfr
          rcases List.mem_cons.1 h2 with rfl | hcf
          · exact Or.inr rfl
          · refine Or.inl ?_
            have := List.all_eq_true.1 hcond.1 c hcf
            simpa using this

theorem parseNumCore_chars {l : List Char} {q : Rat} (h : parseNumCore l = some q) :
    ∀ c ∈ l, c.isDigit = true ∨ c = '+' ∨ c = '-' ∨ c = '.' := by
  intro c hc
  rw [parseNumCore.eq_def] at h
  split at h
  case h_1 r =>
    rcases List.mem_cons.1 hc with rfl | hcr
    · exact Or.inr (Or.inr (Or.inl rfl))
    · rcases parseNumTail_chars h c hcr with hd | hdot
      · exact Or.inl hd
      · exact Or.inr (Or.inr (Or.inr hdot))
  case h_2 r =>
    rcases List.mem_cons.1 hc with rfl | hcr
    · exact Or.inr (Or.inl rfl)
    · rcases parseNumTail_chars h c hcr with hd | hdot
      · exact Or.inl hd
      · exact Or.inr (Or.inr (Or.inr hdot))
  case h_3 =>
    rcases parseNumTail_chars h c hc with hd | hdot
    · exact Or.inl hd
    · exact Or.inr (Or.inr (Or.inr hdot))

theorem parseNumL_none_of_badHead {x : List Char} {t0 : Char} {ts : List Char}
    (htok : stripChars (lowerL x) = t0 :: ts)
    (hd : t0.isDigit = false) (hp : t0 ≠ '+') (hm : t0 ≠ '-') (hdot : t0 ≠ '.') :
    parseNumL x = none := by
  rcases hq : parseNumL x with _ | q
  · rfl
  · exfalso
    rw [← lowerL_stripChars] at htok
    rcases List.map_eq_cons_iff.1 htok with ⟨c0, w', hw, hc0, _⟩
    rw [parseNumL, hw] at hq
    rcases parseNumCore_chars hq c0 (List.mem_cons_self _ _) with hdig | rfl | rfl | rfl
    · rw [toLower_of_digit hdig] at hc0
      subst hc0
      rw [hdig] at hd
      exact absurd hd (by simp)
    · exact hp (by rw [← hc0]; rfl)
    · exact hm (by rw [← hc0]; rfl)
    · exact hdot (by rw [← hc0]; rfl)

theorem parseNumL_none_of_empty {x : List Char}
    (htok : stripChars (lowerL x) = []) : parseNumL x = none := by
  rw [← lowerL_stripChars] at htok
  have hx : stripChars x = [] := by
    rcases hs : stripChars x with _ | ⟨a, r⟩
    · rfl
    · rw [hs] at htok
      exact absurd htok (by simp [lowerL])
  rw [parseNumL, hx]
  rfl

theorem parseDateL_none_of_length {l : List Char}
    (h : (stripChars l).length ≠ 10) : parseDateL l = none := by
  rw [parseDateL]
  split
  case h_1 y1 y2 y3 y4 s1 m1 m2 s2 d1 d2 hm =>
    exact absurd (by rw [hm]; rfl) h
  case h_2 => rfl

theorem stripDot0_eq_of_isNullTok {x : List Char} (h : isNullTok x = true) :
    stripDot0 x = x := by
  rw [stripDot0]
  split
  case h_1 r hrev =>
    exfalso
    have hdot : ('.' : Char) ∈ x := by
      rw [← List.mem_reverse, hrev]
      simp
    have hdotl : ('.' : Char) ∈ lowerL x := List.mem_map.2 ⟨'.', hdot, rfl⟩
    have hdots : ('.' : Char) ∈ stripChars (lowerL x) :=
      mem_stripChars_of_not hdotl (by decide)
    have hmem := isNullTok_iff.1 h
    have hno : ∀ t ∈ nullTokens, ('.' : Char) ∉ t := by decide
    exact hno _ hmem hdots
  case h_2 => rfl

/-- C3.  Null-equivalent collapse: every cell whose string form lowercases
and strips to one of `nan`, `<na>`, `none`, `nat`, or the empty string
normalizes to the canonical empty string under every option setting. -/
theorem C3_null_equivalent_collapse (o : NormOpts) (x : String)
    (h : isNullTok x.data = true) : normalizeCell o x = "" := by
  have hmem := isNullTok_iff.1 h
  have htok : stripChars (lowerL x.data) = ['n', 'a', 'n'] ∨
      stripChars (lowerL x.data) = ['<', 'n', 'a', '>'] ∨
      stripChars (lowerL x.data) = ['n', 'o', 'n', 'e'] ∨
      stripChars (lowerL x.data) = ['n', 'a', 't'] ∨
      stripChars (lowerL x.data) = [] := by
    simpa [nullTokens] using hmem
  have hpn : parseNumL x.data = none := by
    rcases htok with h1 | h1 | h1 | h1 | h1
    · exact parseNumL_none_of_badHead h1 (by decide) (by decide) (by decide) (by decide)
    · exact parseNumL_none_of_badHead h1 (by decide) (by decide) (by decide) (by decide)
    · exact parseNumL_none_of_badHead h1 (by decide) (by decide) (by decide) (by decide)
    · exact parseNumL_none_of_badHead h1 (by decide) (by decide) (by decide) (by decide)
    · exact parseNumL_none_of_empty h1
  have hlen : (stripChars x.data).length ≠ 10 := by
    have hml : (stripChars (lowerL x.data)).length = (stripChars x.data).length := by
      rw [← lowerL_stripChars, lowerL, List.length_map]
    rcases htok with h1 | h1 | h1 | h1 | h1 <;> rw [h1] at hml <;> simp at hml <;> omega
  have hpd : parseDateL x.data = none := parseDateL_none_of_length hlen
  have hsd : stripDot0 x.data = x.data := stripDot0_eq_of_isNullTok h
  suffices hz : normChars o x.data = [] by exact congrArg String.mk hz
  rw [normChars_eq_skeleton]
  simp only [hpn, hpd, hsd, h, if_true]
  rcases o with ⟨cd, tw⟩
  cases cd <;> cases tw <;> rfl

/-- Witness for C3 at the concrete cell `" NaN "`. -/
theorem C3_null_equivalent_collapse_witness :
    isNullTok " NaN ".data = true ∧ normalizeCell ⟨false, false⟩ " NaN " = "" :=
  ⟨by decide, C3_null_equivalent_collapse ⟨false, false⟩ " NaN " (by decide)⟩

/-- C5.  The failing input evaluated: `"5"` parses as the number 5, and the
normalizer — because line 116 hands the numeric substitute to
`pd.to_datetime`, which reads numbers as nanoseconds since the epoch —
converts it to the ISO date string `1970-01-01` instead of keeping the
numeric form `5`; `"5.0"` collapses to the same date. -/
theorem C5_numeric_parsed_becomes_epoch_date :
    parseNumL "5".data = some 5 ∧
    normalizeCell ⟨false, false⟩ "5" = "1970-01-01" ∧
    normalizeCell ⟨false, false⟩ "5" ≠ "5" ∧
    normalizeCell ⟨false, false⟩ "5.0" = "1970-01-01" ∧
    normalizeCell ⟨false, false⟩ "-2" = "1969-12-31" := by
  refine ⟨by decide, by decide, by decide, by decide, by decide⟩
